import Mathlib

/-!
# Verification of the EXFOR x4i3 normalization library and build driver

Shallow embedding of `src/scripts/exfor_x4i3_common.py` and
`src/scripts/build-exfor-from-x4i3.py`.

Modelling conventions:

* Python floats are modelled exactly: a Python float value is a `PFloat`
  (a finite rational, an infinity, or NaN); arithmetic on values that the
  code has already checked to be finite is carried out in `ℚ`.
  Rounding/overflow of IEEE doubles is not modelled (the spec's numeric
  claims are about exact table factors and pass-throughs).
* Python strings are modelled over their character lists.  The ASCII
  fragment of Python's `str.upper`, `str.strip`, `re`'s `[A-Z]`/`\d`
  classes and `float(str)` parsing is embedded faithfully
  (`Char.toUpper`/`Char.isWhitespace`/`Char.isUpper`/`Char.isDigit` agree
  with Python on ASCII, which covers the EXFOR corpus); Python's
  additional Unicode digits/whitespace and `_` digit grouping in float
  literals are outside the modelled character set.
* Python's `re` anchor `$` matches either at the end of the string or just
  before a trailing newline; `parse_target` embeds this faithfully
  (`stripFinalNewline`).
* Data cells (`dataset.data` rows) are `Val`: `None`, a float, or a
  string - the value kinds `x4i3` simplified datasets produce.  The
  `isinstance(row, (list, tuple))` guard of `extract_points` is vacuous
  here because rows are typed as lists.
-/

namespace Exfor

/-- A Python float value: a finite rational, an infinity, or NaN. -/
inductive PFloat where
  | finite (q : ℚ)
  | inf
  | neginf
  | nan
deriving DecidableEq

/-- A scalar cell as it appears in an x4i3 dataset row: `None`, a number,
or a string. -/
inductive Val where
  | vnone
  | vnum (x : PFloat)
  | vstr (s : String)
deriving DecidableEq

/-- Python `str.upper()` on a character list (ASCII fragment). -/
def pyUpper (cs : List Char) : List Char := cs.map Char.toUpper

/-- Python `str.strip()` on a character list (ASCII whitespace). -/
def pyStrip (cs : List Char) : List Char :=
  ((cs.dropWhile Char.isWhitespace).reverse.dropWhile Char.isWhitespace).reverse

/-- The numeric value of a list of ASCII decimal digits, most significant
first (the value Python's `int` gives such a string). -/
def digitsVal (cs : List Char) : Nat :=
  cs.foldl (fun n c => n * 10 + (c.toNat - 48)) 0

/-- The 118 element symbols of `ELEMENTS` in `exfor_x4i3_common.py`,
in order of atomic number. -/
def ELEMENTS : List String :=
  ["H", "HE", "LI", "BE", "B", "C", "N", "O", "F", "NE", "NA", "MG", "AL",
   "SI", "P", "S", "CL", "AR", "K", "CA", "SC", "TI", "V", "CR", "MN",
   "FE", "CO", "NI", "CU", "ZN", "GA", "GE", "AS", "SE", "BR", "KR", "RB",
   "SR", "Y", "ZR", "NB", "MO", "TC", "RU", "RH", "PD", "AG", "CD", "IN",
   "SN", "SB", "TE", "I", "XE", "CS", "BA", "LA", "CE", "PR", "ND", "PM",
   "SM", "EU", "GD", "TB", "DY", "HO", "ER", "TM", "YB", "LU", "HF", "TA",
   "W", "RE", "OS", "IR", "PT", "AU", "HG", "TL", "PB", "BI", "PO", "AT",
   "RN", "FR", "RA", "AC", "TH", "PA", "U", "NP", "PU", "AM", "CM", "BK",
   "CF", "ES", "FM", "MD", "NO", "LR", "RF", "DB", "SG", "BH", "HS", "MT",
   "DS", "RG", "CN", "NH", "FL", "MC", "LV", "TS", "OG"]

/-- First position of `s` in a list of strings, counting from `n`
(the lookup `list.index` performs for a present element). -/
def indexOfStr (s : String) : List String → Nat → Option Nat
  | [], _ => none
  | e :: rest, n => if e = s then some n else indexOfStr s rest (n + 1)

/-- The `SYMBOL_TO_Z` mapping: an element symbol to its atomic number
(position in `ELEMENTS` plus one). -/
def SYMBOL_TO_Z (symbol : String) : Option Nat :=
  (indexOfStr symbol ELEMENTS 0).map (· + 1)

/-- The isomer-state suffix of the regex `(?:-M(\d*)?)?$`: no suffix is
state `0`, a bare `-M` is state `1`, and `-M<digits>` is the digit
value; anything else fails the match. -/
def parseSuffixState : List Char → Option Nat
  | [] => some 0
  | '-' :: 'M' :: ds =>
    if ds.all Char.isDigit then some (if ds = [] then 1 else digitsVal ds)
    else none
  | _ => none

/-- The part of `parse_target`'s regex after `SYMBOL-`: at least one
digit (`\d+`), then the optional `-M` suffix; the symbol must be in
`SYMBOL_TO_Z`. -/
def parseAfterDash (sym rest2 : List Char) : Option (Nat × Nat × Nat) :=
  if rest2.takeWhile Char.isDigit = [] then none
  else
    match parseSuffixState (rest2.dropWhile Char.isDigit),
      SYMBOL_TO_Z (String.mk sym) with
    | some st, some z => some (z, digitsVal (rest2.takeWhile Char.isDigit), st)
    | _, _ => none

/-- The body of `parse_target`'s regular expression
`^([A-Z]{1,3})-(\d+)(?:-M(\d*)?)?$` applied to an exact character list
(no trailing-newline allowance): one to three capital letters, a dash,
then `parseAfterDash`. -/
def parseTargetCore (cs : List Char) : Option (Nat × Nat × Nat) :=
  if (cs.takeWhile Char.isUpper).length < 1 ∨
      3 < (cs.takeWhile Char.isUpper).length then none
  else
    match cs.dropWhile Char.isUpper with
    | '-' :: rest2 => parseAfterDash (cs.takeWhile Char.isUpper) rest2
    | _ => none

/-- Python's `$` anchor also matches just before one trailing newline, so
the regex of `parse_target` ignores a single final `'\n'`. -/
def stripFinalNewline (cs : List Char) : List Char :=
  match cs.reverse with
  | '\x0a' :: rest => rest.reverse
  | _ => cs

/-- `parse_target` of `exfor_x4i3_common.py` (lines 16-25): parse a
nuclide code `SYMBOL-MASS[-M[n]]` into (Z, A, isomer state). -/
def parse_target (target : String) : Option (Nat × Nat × Nat) :=
  parseTargetCore (stripFinalNewline target.toList)

/-- Multiply an exact rational by a signed power of ten. -/
def timesPow10 (m : ℚ) (e : Int) : ℚ :=
  if 0 ≤ e then m * 10 ^ e.toNat else m / 10 ^ (-e).toNat

/-- The exponent part of a Python float literal: optional sign then at
least one digit, consuming the whole remainder. -/
def parseExp (cs : List Char) : Option Int :=
  match cs with
  | '+' :: ds =>
    if ds ≠ [] ∧ ds.all Char.isDigit then some (digitsVal ds) else none
  | '-' :: ds =>
    if ds ≠ [] ∧ ds.all Char.isDigit then some (-(digitsVal ds : Int)) else none
  | ds =>
    if ds ≠ [] ∧ ds.all Char.isDigit then some (digitsVal ds) else none

/-- An unsigned Python decimal float literal, exactly:
`digits [. digits] [e/E exponent]` or `. digits [e/E exponent]`,
with at least one mantissa digit. -/
def parseUnsigned (cs : List Char) : Option ℚ :=
  let ip := cs.takeWhile Char.isDigit
  let afterInt := cs.dropWhile Char.isDigit
  match afterInt with
  | [] => if ip = [] then none else some (digitsVal ip)
  | '.' :: rest2 =>
    let fp := rest2.takeWhile Char.isDigit
    if ip = [] ∧ fp = [] then none
    else
      let mant : ℚ := (digitsVal ip : ℚ) + (digitsVal fp : ℚ) / 10 ^ fp.length
      match rest2.dropWhile Char.isDigit with
      | [] => some mant
      | e :: rest3 =>
        if e = 'e' ∨ e = 'E' then (parseExp rest3).map (timesPow10 mant) else none
  | e :: rest3 =>
    if ip = [] then none
    else if e = 'e' ∨ e = 'E' then
      (parseExp rest3).map (timesPow10 (digitsVal ip : ℚ))
    else none

/-- Negation of a Python float. -/
def pfNeg : PFloat → PFloat
  | .finite q => .finite (-q)
  | .inf => .neginf
  | .neginf => .inf
  | .nan => .nan

/-- An unsigned argument of Python's `float(str)`: the case-insensitive
special tokens `inf`/`infinity`/`nan`, or a decimal literal. -/
def strToFloatUnsigned (cs : List Char) : Option PFloat :=
  let up := pyUpper cs
  if up = "INF".toList ∨ up = "INFINITY".toList then some .inf
  else if up = "NAN".toList then some .nan
  else (parseUnsigned cs).map .finite

/-- Python's `float(str)` on an already-stripped string, as `PFloat`
(`none` models the `ValueError` branch). -/
def strToFloat (cs : List Char) : Option PFloat :=
  match cs with
  | '+' :: rest => strToFloatUnsigned rest
  | '-' :: rest => (strToFloatUnsigned rest).map pfNeg
  | _ => strToFloatUnsigned cs

/-- The finiteness filter of `to_num` (lines 41-42): a non-finite float
(`math.isnan` or `math.isinf`) becomes `None`. -/
def finitePart : PFloat → Option ℚ
  | .finite q => some q
  | _ => none

/-- The sentinel strings `{'-', 'NA', 'N/A'}` of `to_num`. -/
def SENTINELS : List (List Char) :=
  [['-'], ['N', 'A'], ['N', '/', 'A']]

/-- `to_num` of `exfor_x4i3_common.py` (lines 28-43): coerce a scalar to
a finite number or `None`. -/
def to_num : Val → Option ℚ
  | .vnone => none
  | .vnum x => finitePart x
  | .vstr s =>
    let text := pyStrip s.toList
    if text = [] ∨ text ∈ SENTINELS then none
    else (strToFloat text).bind finitePart

/-- The Boltzmann constant in eV per kelvin, `8.617333262e-5`, exactly. -/
def kB_eV : ℚ := 8617333262 / 10 ^ 14

/-- The Boltzmann constant in keV per kelvin, `8.617333262e-8`, exactly. -/
def kB_keV : ℚ := 8617333262 / 10 ^ 17

/-- `energy_to_ev` of `exfor_x4i3_common.py` (lines 46-55): convert an
energy to eV by a fixed unit-factor table; unknown units pass the value
through unchanged. -/
def energy_to_ev (value : Option ℚ) (unit : List Char) : Option ℚ :=
  match value with
  | none => none
  | some v =>
    let u := pyStrip (pyUpper unit)
    if u = "EV".toList then some (v * 1)
    else if u = "KEV".toList then some (v * 10 ^ 3)
    else if u = "MEV".toList then some (v * 10 ^ 6)
    else if u = "GEV".toList then some (v * 10 ^ 9)
    else if u = "MILLI-EV".toList then some (v * (1 / 10 ^ 3))
    else if u = "UEV".toList then some (v * (1 / 10 ^ 6))
    else if u = "NEV".toList then some (v * (1 / 10 ^ 9))
    else if u = "K".toList then some (v * kB_eV)
    else some v

/-- `kt_to_kev` of `exfor_x4i3_common.py` (lines 58-72): convert a
thermal-energy value to keV; unknown units pass through unchanged. -/
def kt_to_kev (value : Option ℚ) (unit : List Char) : Option ℚ :=
  match value with
  | none => none
  | some v =>
    let u := pyStrip (pyUpper unit)
    if u = "KEV".toList then some v
    else if u = "EV".toList then some (v / 10 ^ 3)
    else if u = "MEV".toList then some (v * 10 ^ 3)
    else if u = "GEV".toList then some (v * 10 ^ 6)
    else if u = "K".toList then some (v * kB_keV)
    else some v

/-- First position of `target` in `labels`, counting from `n`. -/
def indexOfL (target : List Char) : List (List Char) → Nat → Option Nat
  | [], _ => none
  | l :: rest, n => if l = target then some n else indexOfL target rest (n + 1)

/-- `find_index` of `exfor_x4i3_common.py` (lines 75-79): position of the
first candidate that occurs among the labels. -/
def find_index (labels : List (List Char)) : List (List Char) → Option Nat
  | [] => none
  | c :: rest =>
    match indexOfL c labels 0 with
    | some i => some i
    | none => find_index labels rest

/-- Whether `pre` is a prefix of `l` (Python `str.startswith`). -/
def startsWithL : List Char → List Char → Bool
  | [], _ => true
  | _ :: _, [] => false
  | p :: ps, c :: cs => p = c && startsWithL ps cs

/-- Whether `sub` occurs contiguously in a list (Python's `in` on
strings). -/
def containsSub (sub : List Char) : List Char → Bool
  | [] => sub = []
  | c :: t => startsWithL sub (c :: t) || containsSub sub t

/-- An x4i3 simplified dataset as `extract_points` reads it: parallel
label/unit sequences (entries may be `None`) and a row matrix. -/
structure Dataset where
  labels : List (Option String)
  units : List (Option String)
  data : List (List Val)

/-- Label/unit normalization of `extract_points` (lines 83-84):
`str(item).upper()` with `None` becoming the empty string. -/
def normLabel : Option String → List Char
  | none => []
  | some s => pyUpper s.toList

/-- The skip set `energy_labels` of `extract_points` (line 90): the
energy/temperature labels the fallback value-column scan knows. -/
def ENERGY_SKIP_LABELS : List (List Char) :=
  ["EN".toList, "ENERGY".toList, "EN-LAB".toList, "EN-CM".toList,
   "EN-RSL".toList, "KT".toList, "KT-K".toList]

/-- The fallback value-column scan of `extract_points` (lines 91-95):
first label, in order from position `n`, that does not contain `"ERR"`,
does not start with `"D("`, and is not in `ENERGY_SKIP_LABELS`. -/
def fallbackScan : List (List Char) → Nat → Option Nat
  | [], _ => none
  | l :: rest, n =>
    if containsSub "ERR".toList l ∨ startsWithL "D(".toList l ∨ l ∈ ENERGY_SKIP_LABELS
    then fallbackScan rest (n + 1)
    else some n

/-- The value-column resolution of `extract_points` (lines 88-95): a
label literally `"DATA"`, else the fallback scan. -/
def dataIndexOf (labels : List (List Char)) : Option Nat :=
  match find_index labels ["DATA".toList] with
  | some i => some i
  | none => fallbackScan labels 0

/-- The energy-column candidates of `extract_points` (line 99). -/
def energyIndexOf (labels : List (List Char)) : Option Nat :=
  find_index labels
    ["EN".toList, "ENERGY".toList, "EN-LAB".toList, "EN-CM".toList,
     "EN-RSL".toList, "E".toList]

/-- The temperature-column candidates of `extract_points` (line 100). -/
def ktIndexOf (labels : List (List Char)) : Option Nat :=
  find_index labels ["KT".toList, "KT-K".toList, "K-T".toList]

/-- The combined-error-column candidates of `extract_points` (line 101). -/
def errIndexOf (labels : List (List Char)) : Option Nat :=
  find_index labels
    ["DATA-ERR".toList, "D(DATA)".toList, "ERR".toList, "ERR-T".toList,
     "STAT-W G".toList]

/-- The `+DATA-ERR` column of `extract_points` (line 102). -/
def errPlusOf (labels : List (List Char)) : Option Nat :=
  find_index labels ["+DATA-ERR".toList]

/-- The `-DATA-ERR` column of `extract_points` (line 103). -/
def errMinusOf (labels : List (List Char)) : Option Nat :=
  find_index labels ["-DATA-ERR".toList]

/-- One extracted point `(point_index, energy_ev, kt_kev, value,
uncertainty)`. -/
structure Point where
  point_index : Nat
  energy_eV : Option ℚ
  kT_keV : Option ℚ
  value : ℚ
  uncertainty : Option ℚ
deriving DecidableEq, Repr

/-- The plus/minus error fallback of `extract_points` (lines 123-126):
average of the absolute values when both columns are usable. -/
def pmUnc (row : List Val) (ep em : Option Nat) : Option ℚ :=
  match ep, em with
  | some p, some m =>
    if p < row.length ∧ m < row.length then
      match to_num (row.getD p .vnone), to_num (row.getD m .vnone) with
      | some pv, some mv => some ((|pv| + |mv|) / 2)
      | _, _ => none
    else none
  | _, _ => none

/-- The uncertainty of one row (lines 118-126): absolute value of a
usable combined-error cell; the plus/minus fallback runs only when no
in-range combined-error column exists. -/
def uncertaintyOf (row : List Val) (er ep em : Option Nat) : Option ℚ :=
  match er with
  | some i =>
    if i < row.length then
      match to_num (row.getD i .vnone) with
      | some ev => some |ev|
      | none => none
    else pmUnc row ep em
  | none => pmUnc row ep em

/-- One iteration of the row loop of `extract_points` (lines 106-127)
at enumeration index `pi`: skip the row unless the value cell is in
range and coerces to a number; extract temperature only for `MACS` and
energy only otherwise. -/
def extractRow (units : List (List Char)) (di : Nat)
    (ei ki er ep em : Option Nat) (quantity : String) (pi : Nat)
    (row : List Val) : Option Point :=
  if di < row.length then
    match to_num (row.getD di .vnone) with
    | none => none
    | some v =>
      let energy : Option ℚ :=
        if quantity = "MACS" then none
        else
          match ei with
          | some e =>
            if e < row.length then
              energy_to_ev (to_num (row.getD e .vnone)) (units.getD e [])
            else none
          | none => none
      let kt : Option ℚ :=
        if quantity = "MACS" then
          match ki with
          | some k =>
            if k < row.length then
              kt_to_kev (to_num (row.getD k .vnone)) (units.getD k [])
            else none
          | none => none
        else none
      some ⟨pi, energy, kt, v, uncertaintyOf row er ep em⟩
  else none

/-- Python's `enumerate` over a row list, counting from `n`. -/
def enumRows (n : Nat) : List (List Val) → List (Nat × List Val)
  | [] => []
  | r :: rs => (n, r) :: enumRows (n + 1) rs

/-- `extract_points` of `exfor_x4i3_common.py` (lines 82-128). -/
def extract_points (ds : Dataset) (quantity : String) (max_points : Nat) :
    List Point :=
  let labels := ds.labels.map normLabel
  let units := ds.units.map normLabel
  if labels = [] then []
  else
    match dataIndexOf labels with
    | none => []
    | some di =>
      (enumRows 0 (ds.data.take max_points)).filterMap fun pr =>
        extractRow units di (energyIndexOf labels) (ktIndexOf labels)
          (errIndexOf labels) (errPlusOf labels) (errMinusOf labels)
          quantity pr.1 pr.2

/-! ## The build driver (`build-exfor-from-x4i3.py`) -/

/-- `PROJECTILE_MAP` of `exfor_x4i3_common.py` (line 4). -/
def PROJECTILE_MAP : String → Option String
  | "N" => some "n"
  | "P" => some "p"
  | "G" => some "g"
  | "D" => some "d"
  | "A" => some "a"
  | "HE3" => some "h"
  | "H" => some "h"
  | _ => none

/-- `SUPPORTED_Q` of `exfor_x4i3_common.py` (line 5). -/
def SUPPORTED_Q : List String := ["SIG", "DA", "DE", "FY", "MACS"]

/-- One candidate row of the index query (entry, subent, pointer, target,
projectile, reaction, quantity, author); nullable columns are `Option`. -/
structure IndexRow where
  entry_id : String
  subent : String
  pointer : Option String
  target : String
  projectile : String
  reaction : Option String
  quantity : String
  author : Option String

/-- Pointer normalization of `flush_entry` (line 99):
`(pointer or ' ').strip() or ' '`, i.e. trim, and a null/blank pointer
becomes the single-space sentinel. -/
def normPointer (p : Option String) : List Char :=
  let s := pyStrip (p.getD "").toList
  if s = [] then [' '] else s

/-- A key of the per-dataset map: (entry, subentry, pointer). -/
def DatasetKey : Type := String × String × List Char

instance : DecidableEq DatasetKey := by
  unfold DatasetKey
  infer_instance

/-- Dataset lookup of `flush_entry` (lines 100-103): the exact
(entry, subent, pointer) key, else the first dataset in map order that
shares the subentry. -/
def lookupDataset (dm : List (DatasetKey × Dataset)) (key : DatasetKey) :
    Option Dataset :=
  match dm.find? (fun kv => kv.1 = key) with
  | some kv => some kv.2
  | none => (dm.find? (fun kv => kv.1.2.1 = key.2.1)).map (·.2)

/-- One `exfor_entries` record (the `INSERT` at lines 116-120); `year` is
always null and omitted. -/
structure EntryRec where
  entry_id : String
  subentry_id : String
  target_Z : Nat
  target_A : Nat
  state : Nat
  projectile : String
  reaction : Option String
  quantity : String
  reference : Option String

/-- What one index row contributes inside `flush_entry` (lines 89-111),
before deduplication: `none` when the row is skipped (unparsable nuclide,
unsupported quantity, unknown projectile, missing dataset, or no points),
else the (entry_id, derived subentry_id) key with the entry record and
points.  The derived subentry id is the subentry alone for the blank
pointer sentinel, else `subentry:pointer`. -/
def rowOutcome (dm : List (DatasetKey × Dataset)) (maxPoints : Nat)
    (row : IndexRow) : Option ((String × String) × EntryRec × List Point) :=
  match parse_target row.target with
  | none => none
  | some (z, a, st) =>
    if row.quantity ∈ SUPPORTED_Q then
      match PROJECTILE_MAP row.projectile with
      | none => none
      | some proj =>
        let ptr := normPointer row.pointer
        match lookupDataset dm (row.entry_id, row.subent, ptr) with
        | none => none
        | some ds =>
          let pts := extract_points ds row.quantity maxPoints
          if pts = [] then none
          else
            let subentry_id :=
              if ptr = [' '] then row.subent
              else row.subent ++ ":" ++ String.mk ptr
            some ((row.entry_id, subentry_id),
              ⟨row.entry_id, subentry_id, z, a, st, proj, row.reaction,
               row.quantity, row.author⟩, pts)
    else none

/-- The mutable build state: the `written_entries` dedup set and the
output store's accumulated entry and point rows. -/
structure BuildState where
  written : List (String × String)
  entries : List EntryRec
  points : List (String × String × Point)

/-- Processing of one index row inside `flush_entry` (lines 89-127):
skip silently when the (entry_id, subentry_id) pair was already written,
else insert the entry record and its points and mark the pair written. -/
def processRow (dm : List (DatasetKey × Dataset)) (maxPoints : Nat)
    (st : BuildState) (row : IndexRow) : BuildState :=
  match rowOutcome dm maxPoints row with
  | none => st
  | some (key, rec, pts) =>
    if key ∈ st.written then st
    else
      ⟨key :: st.written, st.entries ++ [rec],
       st.points ++ pts.map (fun p => (key.1, key.2, p))⟩

/-- One `flush_entry` call: fold its rows through `processRow` with the
dataset map loaded for that entry. -/
def processRows (dm : List (DatasetKey × Dataset)) (maxPoints : Nat)
    (st : BuildState) (rows : List IndexRow) : BuildState :=
  rows.foldl (processRow dm maxPoints) st

/-- A whole build run: the driver's main loop flushes one group of index
rows per entry, threading `written_entries` and the output store through
all flushes; each group carries the dataset map its entry loaded. -/
def runBuild (maxPoints : Nat)
    (groups : List (List (DatasetKey × Dataset) × List IndexRow)) :
    BuildState :=
  groups.foldl (fun st g => processRows g.1 maxPoints st g.2) ⟨[], [], []⟩

/-- First-write-wins deduplication of an outcome stream: keep an outcome
only when its key is not in `seen` and no earlier kept outcome used it. -/
def dedupFirst (seen : List (String × String)) :
    List ((String × String) × EntryRec × List Point) →
    List ((String × String) × EntryRec × List Point)
  | [] => []
  | o :: rest =>
    if o.1 ∈ seen then dedupFirst seen rest
    else o :: dedupFirst (o.1 :: seen) rest

/-- The dedup set after a stream of outcomes has been processed. -/
def seenAfter (seen : List (String × String)) :
    List ((String × String) × EntryRec × List Point) →
    List (String × String)
  | [] => seen
  | o :: rest =>
    if o.1 ∈ seen then seenAfter seen rest
    else seenAfter (o.1 :: seen) rest

/-! ## Filesystem trace of the build (atomic publish)

`main` opens its sqlite connection on `args.output + ".tmp.build"`
(lines 33-34), so every store write of the run lands on the temporary
path; the single operation on the destination path is the final
`os.replace(tmp_output, args.output)` (line 150).  A run interrupted at
any earlier point is a proper prefix of this trace. -/

/-- A path-affecting filesystem operation. -/
inductive FsOp where
  | writeFile (path : String) (content : String)
  | rename (src : String) (dst : String)
deriving DecidableEq

/-- Filesystem state: each path's content, `none` when absent. -/
def applyOp (fs : String → Option String) : FsOp → String → Option String
  | .writeFile p c => fun q => if q = p then some c else fs q
  | .rename s d => fun q => if q = d then fs s else if q = s then none else fs q

/-- Apply a trace of operations in order. -/
def applyTrace (fs : String → Option String) (ops : List FsOp) :
    String → Option String :=
  ops.foldl applyOp fs

/-- The temporary output path `f"{args.output}.tmp.build"` (line 33). -/
def tmpPath (output : String) : String := output ++ ".tmp.build"

/-- The build's path-affecting trace: every store write targets the
temporary path (the sqlite connection of line 34 and its WAL live
there); the final `os.replace` (line 150) atomically renames it over the
destination. -/
def buildTrace (output : String) (writes : List String) : List FsOp :=
  writes.map (fun c => FsOp.writeFile (tmpPath output) c) ++
    [FsOp.rename (tmpPath output) output]

/-! ## Specification-side definitions

These formalize claim sentences in the claim's own words, to be compared
with the code-side definitions above. -/

/-- The fallback of the specification's value-column rule: the first
label that does not contain `"ERR"`, does not start with `"D("`, and is
not a known energy/temperature label (`ENERGY_SKIP_LABELS`). -/
def specValueFallback : List (List Char) → Nat → Option Nat
  | [], _ => none
  | l :: rest, n =>
    if ¬ containsSub "ERR".toList l ∧ ¬ startsWithL "D(".toList l ∧
        l ∉ ENERGY_SKIP_LABELS
    then some n
    else specValueFallback rest (n + 1)

/-- The value-column rule as the specification states it: the first
label equal to `"DATA"` if one exists; otherwise the first acceptable
fallback label. -/
def specValueColumn (labels : List (List Char)) : Option Nat :=
  match indexOfL "DATA".toList labels 0 with
  | some i => some i
  | none => specValueFallback labels 0

/-- The target-string format as the claim states it, on a character
list: `SYMBOL-MASS` or `SYMBOL-MASS-Mn` with `SYMBOL` in the element
table, where the state is `0` with no suffix, `1` for a bare `-M`, and
the digit value for `-Mn`. -/
def strictFormL (cs : List Char) (z a st : Nat) : Prop :=
  ∃ sym mass suffix : List Char,
    cs = sym ++ '-' :: (mass ++ suffix) ∧
    SYMBOL_TO_Z (String.mk sym) = some z ∧
    mass ≠ [] ∧ mass.all Char.isDigit = true ∧ a = digitsVal mass ∧
    ((suffix = [] ∧ st = 0) ∨
     (suffix = ['-', 'M'] ∧ st = 1) ∨
     (∃ ds : List Char, ds ≠ [] ∧ ds.all Char.isDigit = true ∧
       suffix = '-' :: 'M' :: ds ∧ st = digitsVal ds))

/-- The claim's format, exactly as stated, on the whole input string. -/
def specTargetStrict (s : String) (z a st : Nat) : Prop :=
  strictFormL s.toList z a st

/-- The amended format: the claim's format up to one trailing newline
(which Python's `$` anchor ignores). -/
def specTargetNL (s : String) (z a st : Nat) : Prop :=
  ∃ core : List Char,
    (s.toList = core ∨ s.toList = core ++ ['\x0a']) ∧ strictFormL core z a st

/-! ## Helper lemmas about the extractor -/

theorem find_index_singleton (labels : List (List Char)) (c : List Char) :
    find_index labels [c] = indexOfL c labels 0 := by
  cases h : indexOfL c labels 0 <;> simp [find_index, h]

theorem fallbackScan_eq_specValueFallback :
    ∀ (ls : List (List Char)) (n : Nat), fallbackScan ls n = specValueFallback ls n := by
  intro ls
  induction ls with
  | nil => intro n; rfl
  | cons l rest ih =>
    intro n
    simp only [fallbackScan, specValueFallback]
    split_ifs with h1 h2
    · simp_all
    · exact ih _
    · rfl
    · simp_all

theorem dataIndexOf_eq_specValueColumn (labels : List (List Char)) :
    dataIndexOf labels = specValueColumn labels := by
  unfold dataIndexOf specValueColumn
  rw [find_index_singleton]
  cases h : indexOfL "DATA".toList labels 0 <;>
    simp [h, fallbackScan_eq_specValueFallback]

theorem extract_points_cases (ds : Dataset) (q : String) (mp : Nat) :
    extract_points ds q mp = [] ∨
    ∃ di, dataIndexOf (ds.labels.map normLabel) = some di ∧
      extract_points ds q mp =
        (enumRows 0 (ds.data.take mp)).filterMap fun pr =>
          extractRow (ds.units.map normLabel) di
            (energyIndexOf (ds.labels.map normLabel))
            (ktIndexOf (ds.labels.map normLabel))
            (errIndexOf (ds.labels.map normLabel))
            (errPlusOf (ds.labels.map normLabel))
            (errMinusOf (ds.labels.map normLabel)) q pr.1 pr.2 := by
  by_cases hl : ds.labels.map normLabel = []
  · left; simp [extract_points, hl]
  · cases hd : dataIndexOf (ds.labels.map normLabel) with
    | none => left; simp [extract_points, hl, hd]
    | some di => right; exact ⟨di, rfl, by simp [extract_points, hl, hd]⟩

theorem mem_extract_points {ds : Dataset} {q : String} {mp : Nat} {p : Point}
    (hp : p ∈ extract_points ds q mp) :
    ∃ di pi row,
      dataIndexOf (ds.labels.map normLabel) = some di ∧
      (pi, row) ∈ enumRows 0 (ds.data.take mp) ∧
      extractRow (ds.units.map normLabel) di
        (energyIndexOf (ds.labels.map normLabel))
        (ktIndexOf (ds.labels.map normLabel))
        (errIndexOf (ds.labels.map normLabel))
        (errPlusOf (ds.labels.map normLabel))
        (errMinusOf (ds.labels.map normLabel)) q pi row = some p := by
  rcases extract_points_cases ds q mp with h | ⟨di, hdi, h⟩
  · rw [h] at hp; exact absurd hp (List.not_mem_nil p)
  · rw [h] at hp
    rcases List.mem_filterMap.mp hp with ⟨pr, hmem, hrow⟩
    exact ⟨di, pr.1, pr.2, hdi, hmem, hrow⟩

theorem extractRow_eq_some {units : List (List Char)} {di : Nat}
    {ei ki er ep em : Option Nat} {q : String} {pi : Nat} {row : List Val}
    {p : Point} (h : extractRow units di ei ki er ep em q pi row = some p) :
    p.point_index = pi ∧
    p.uncertainty = uncertaintyOf row er ep em ∧
    (q = "MACS" → p.energy_eV = none) ∧
    (q ≠ "MACS" → p.kT_keV = none) := by
  unfold extractRow at h
  split at h
  · split at h
    · exact absurd h (by simp)
    · rw [Option.some.injEq] at h
      subst h
      refine ⟨rfl, rfl, ?_, ?_⟩ <;> intro hq <;> simp [hq]
  · exact absurd h (by simp)

theorem pmUnc_nonneg {row : List Val} {ep em : Option Nat} {u : ℚ}
    (h : pmUnc row ep em = some u) : 0 ≤ u := by
  unfold pmUnc at h
  split at h
  · split at h
    · split at h
      · rw [Option.some.injEq] at h
        subst h
        positivity
      · exact absurd h (by simp)
    · exact absurd h (by simp)
  · exact absurd h (by simp)

theorem uncertaintyOf_nonneg {row : List Val} {er ep em : Option Nat} {u : ℚ}
    (h : uncertaintyOf row er ep em = some u) : 0 ≤ u := by
  unfold uncertaintyOf at h
  split at h
  · split at h
    · split at h
      · rw [Option.some.injEq] at h
        subst h
        exact abs_nonneg _
      · exact absurd h (by simp)
    · exact pmUnc_nonneg h
  · exact pmUnc_nonneg h

theorem enumRows_length (n : Nat) :
    ∀ l : List (List Val), (enumRows n l).length = l.length := by
  intro l
  induction l generalizing n with
  | nil => rfl
  | cons a t ih => simp [enumRows, ih]

theorem enumRows_fst_le {n : Nat} :
    ∀ {l : List (List Val)} {x : Nat × List Val}, x ∈ enumRows n l → n ≤ x.1 := by
  intro l
  induction l generalizing n with
  | nil => intro x hx; exact absurd hx (List.not_mem_nil x)
  | cons a t ih =>
    intro x hx
    rcases List.mem_cons.mp hx with h | h
    · subst h; exact Nat.le_refl n
    · exact Nat.le_of_succ_le (ih h)

theorem enumRows_pairwise (n : Nat) :
    ∀ l : List (List Val), (enumRows n l).Pairwise (fun a b => a.1 < b.1) := by
  intro l
  induction l generalizing n with
  | nil => exact List.Pairwise.nil
  | cons a t ih =>
    refine List.Pairwise.cons ?_ (ih (n + 1))
    intro b hb
    have := enumRows_fst_le hb
    omega

theorem mem_enumRows {n i : Nat} {r : List Val} :
    ∀ {l : List (List Val)}, (i, r) ∈ enumRows n l → n ≤ i ∧ l[i - n]? = some r := by
  intro l
  induction l generalizing n with
  | nil => intro h; exact absurd h (List.not_mem_nil _)
  | cons a t ih =>
    intro h
    rcases List.mem_cons.mp h with h | h
    · rw [Prod.mk.injEq] at h
      obtain ⟨h1, h2⟩ := h
      subst h1; subst h2
      simp
    · obtain ⟨hle, hget⟩ := ih h
      refine ⟨by omega, ?_⟩
      have hidx : i - n = (i - (n + 1)) + 1 := by omega
      rw [hidx]
      simpa using hget

/-! ## Claim theorems for the extractor -/

/-- C1: the value column of `extract_points` is the first label equal to
`"DATA"` if one exists, otherwise the first label that does not contain
`"ERR"`, does not start with `"D("`, and is not a known
energy/temperature label; with an empty label list or no resolvable
value column, `extract_points` returns the empty point list. -/
theorem claim_C1_value_column (ds : Dataset) (q : String) (mp : Nat) :
    dataIndexOf (ds.labels.map normLabel) = specValueColumn (ds.labels.map normLabel) ∧
    ((ds.labels.map normLabel = [] ∨
        specValueColumn (ds.labels.map normLabel) = none) →
      extract_points ds q mp = []) := by
  refine ⟨dataIndexOf_eq_specValueColumn _, fun h => ?_⟩
  rcases h with h | h
  · simp [extract_points, h]
  · have hd : dataIndexOf (ds.labels.map normLabel) = none := by
      rw [dataIndexOf_eq_specValueColumn]; exact h
    by_cases hl : ds.labels.map normLabel = []
    · simp [extract_points, hl]
    · simp [extract_points, hl, hd]

/-- C4: a point of a `MACS` dataset never carries an energy, and a point
of any other supported quantity never carries a temperature. -/
theorem claim_C4_energy_kt_exclusive (ds : Dataset) (q : String) (mp : Nat)
    (p : Point) (hp : p ∈ extract_points ds q mp) :
    (q = "MACS" → p.energy_eV = none) ∧
    (q ∈ SUPPORTED_Q → q ≠ "MACS" → p.kT_keV = none) := by
  obtain ⟨di, pi, row, _, _, hrow⟩ := mem_extract_points hp
  obtain ⟨_, _, he, hk⟩ := extractRow_eq_some hrow
  exact ⟨he, fun _ => hk⟩

/-- Witness dataset for C4: a one-column `DATA` layout with one row. -/
def wds4 : Dataset := ⟨[some "DATA"], [some "B"], [[Val.vnum (.finite 2)]]⟩

/-- The point `extract_points` produces from `wds4`. -/
def wpt4 : Point := ⟨0, none, none, 2, none⟩

theorem claim_C4_witness :
    ("SIG" = "MACS" → wpt4.energy_eV = none) ∧
    ("SIG" ∈ SUPPORTED_Q → "SIG" ≠ "MACS" → wpt4.kT_keV = none) :=
  claim_C4_energy_kt_exclusive wds4 "SIG" 5 wpt4
    (by rw [show extract_points wds4 "SIG" 5 = [wpt4] from rfl]
        exact List.mem_singleton_self _)

/-- C5: `extract_points` returns at most `max_points` points, and their
`point_index` components (naturals, hence non-negative) are strictly
increasing in list order. -/
theorem claim_C5_bounded_strictly_increasing (ds : Dataset) (q : String)
    (mp : Nat) :
    (extract_points ds q mp).length ≤ mp ∧
    (extract_points ds q mp).Pairwise
      (fun p₁ p₂ => p₁.point_index < p₂.point_index) ∧
    ∀ p ∈ extract_points ds q mp, 0 ≤ p.point_index := by
  refine ⟨?_, ?_, fun p _ => Nat.zero_le _⟩ <;>
    rcases extract_points_cases ds q mp with h | ⟨di, _, h⟩ <;> rw [h]
  · exact Nat.zero_le mp
  · refine le_trans (List.length_filterMap_le _ _) ?_
    rw [enumRows_length, List.length_take]
    exact min_le_left _ _
  · exact List.Pairwise.nil
  · refine List.pairwise_filterMap.mpr ?_
    refine (enumRows_pairwise 0 _).imp ?_
    intro a b hab x hx y hy
    rw [(extractRow_eq_some (Option.mem_def.mp hx)).1,
        (extractRow_eq_some (Option.mem_def.mp hy)).1]
    exact hab

/-- C9: every uncertainty `extract_points` emits is null or non-negative
(absolute value of a single error column, or the average of the absolute
plus/minus pair). -/
theorem claim_C9_uncertainty_nonneg (ds : Dataset) (q : String) (mp : Nat)
    (p : Point) (u : ℚ) (hp : p ∈ extract_points ds q mp)
    (hu : p.uncertainty = some u) : 0 ≤ u := by
  obtain ⟨di, pi, row, _, _, hrow⟩ := mem_extract_points hp
  obtain ⟨_, hunc, _, _⟩ := extractRow_eq_some hrow
  rw [hunc] at hu
  exact uncertaintyOf_nonneg hu

/-- Witness dataset for C9: a `DATA`/`DATA-ERR` layout with a negative
error cell. -/
def wds9 : Dataset :=
  ⟨[some "DATA", some "DATA-ERR"], [some "B", some "B"],
   [[Val.vnum (.finite 2), Val.vnum (.finite (-3))]]⟩

/-- The point `extract_points` produces from `wds9`. -/
def wpt9 : Point := ⟨0, none, none, 2, some |(-3 : ℚ)|⟩

theorem claim_C9_witness : (0 : ℚ) ≤ |(-3 : ℚ)| :=
  claim_C9_uncertainty_nonneg wds9 "SIG" 5 wpt9 |(-3 : ℚ)|
    (by rw [show extract_points wds9 "SIG" 5 = [wpt9] from rfl]
        exact List.mem_singleton_self _)
    rfl

/-- C10: when a combined-error column is resolved and its cell in a row
coerces to null, that row's point has a null uncertainty - the
plus/minus pair is not consulted. -/
theorem claim_C10_pm_not_consulted (ds : Dataset) (q : String) (mp : Nat)
    (p : Point) (i : Nat) (row : List Val)
    (hp : p ∈ extract_points ds q mp)
    (he : errIndexOf (ds.labels.map normLabel) = some i)
    (hrow : ds.data[p.point_index]? = some row)
    (hlen : i < row.length)
    (hnull : to_num (row.getD i .vnone) = none) :
    p.uncertainty = none := by
  obtain ⟨di, pi, row', _, hmem, hext⟩ := mem_extract_points hp
  obtain ⟨hpi, hunc, _, _⟩ := extractRow_eq_some hext
  obtain ⟨_, hget⟩ := mem_enumRows hmem
  rw [Nat.sub_zero] at hget
  rw [List.getElem?_take] at hget
  split at hget
  · rw [hpi] at hrow
    rw [hrow] at hget
    rw [Option.some.injEq] at hget
    subst hget
    rw [hunc, he]
    simp only [uncertaintyOf]
    rw [if_pos hlen, hnull]
  · exact absurd hget (by simp)

/-- Witness dataset for C10: the combined-error cell is the `"-"`
sentinel while the plus/minus pair is usable. -/
def wds10 : Dataset :=
  ⟨[some "DATA", some "DATA-ERR", some "+DATA-ERR", some "-DATA-ERR"],
   [some "B", some "B", some "B", some "B"],
   [[Val.vnum (.finite 2), Val.vstr "-", Val.vnum (.finite 1),
     Val.vnum (.finite 1)]]⟩

/-- The single row of `wds10`. -/
def wrow10 : List Val :=
  [Val.vnum (.finite 2), Val.vstr "-", Val.vnum (.finite 1),
   Val.vnum (.finite 1)]

/-- The point `extract_points` produces from `wds10`. -/
def wpt10 : Point := ⟨0, none, none, 2, none⟩

theorem claim_C10_witness : wpt10.uncertainty = none :=
  claim_C10_pm_not_consulted wds10 "SIG" 5 wpt10 1 wrow10
    (by rw [show extract_points wds10 "SIG" 5 = [wpt10] from rfl]
        exact List.mem_singleton_self _)
    (by decide) rfl (by decide) (by decide)

/-! ## Unit conversion and numeric coercion claims -/

/-- The units `energy_to_ev` recognizes (its factor table plus Kelvin). -/
def ENERGY_UNITS : List (List Char) :=
  ["EV".toList, "KEV".toList, "MEV".toList, "GEV".toList,
   "MILLI-EV".toList, "UEV".toList, "NEV".toList, "K".toList]

/-- The units `kt_to_kev` recognizes. -/
def KT_UNITS : List (List Char) :=
  ["KEV".toList, "EV".toList, "MEV".toList, "GEV".toList, "K".toList]

/-- C6: the converters map null to null, multiply by the fixed table
factor for every recognized unit (Kelvin via the Boltzmann constant),
and pass values through unchanged for unknown units; in particular
`(1000, KEV)` gives `1000000` eV, `(1, K)` gives `8.617333262e-5` eV,
and `(5, XYZ)` gives `5`. -/
theorem claim_C6_unit_conversion :
    (∀ u, energy_to_ev none u = none) ∧
    (∀ u, kt_to_kev none u = none) ∧
    (∀ v : ℚ,
      energy_to_ev (some v) "EV".toList = some (v * 1) ∧
      energy_to_ev (some v) "KEV".toList = some (v * 10 ^ 3) ∧
      energy_to_ev (some v) "MEV".toList = some (v * 10 ^ 6) ∧
      energy_to_ev (some v) "GEV".toList = some (v * 10 ^ 9) ∧
      energy_to_ev (some v) "MILLI-EV".toList = some (v * (1 / 10 ^ 3)) ∧
      energy_to_ev (some v) "UEV".toList = some (v * (1 / 10 ^ 6)) ∧
      energy_to_ev (some v) "NEV".toList = some (v * (1 / 10 ^ 9)) ∧
      energy_to_ev (some v) "K".toList = some (v * kB_eV) ∧
      kt_to_kev (some v) "KEV".toList = some v ∧
      kt_to_kev (some v) "EV".toList = some (v / 10 ^ 3) ∧
      kt_to_kev (some v) "MEV".toList = some (v * 10 ^ 3) ∧
      kt_to_kev (some v) "GEV".toList = some (v * 10 ^ 6) ∧
      kt_to_kev (some v) "K".toList = some (v * kB_keV)) ∧
    (∀ (v : ℚ) (u : List Char), pyStrip (pyUpper u) ∉ ENERGY_UNITS →
      energy_to_ev (some v) u = some v) ∧
    (∀ (v : ℚ) (u : List Char), pyStrip (pyUpper u) ∉ KT_UNITS →
      kt_to_kev (some v) u = some v) ∧
    energy_to_ev (some 1000) "KEV".toList = some 1000000 ∧
    energy_to_ev (some 1) "K".toList = some (8617333262 / 10 ^ 14) ∧
    energy_to_ev (some 5) "XYZ".toList = some 5 := by
  refine ⟨fun u => rfl, fun u => rfl,
    fun v => ⟨rfl, rfl, rfl, rfl, rfl, rfl, rfl, rfl, rfl, rfl, rfl, rfl, rfl⟩,
    ?_, ?_, ?_, ?_, rfl⟩
  · intro v u h
    simp only [ENERGY_UNITS, List.mem_cons, List.not_mem_nil, or_false,
      not_or] at h
    obtain ⟨h1, h2, h3, h4, h5, h6, h7, h8⟩ := h
    simp only [energy_to_ev]
    rw [if_neg h1, if_neg h2, if_neg h3, if_neg h4, if_neg h5, if_neg h6,
      if_neg h7, if_neg h8]
  · intro v u h
    simp only [KT_UNITS, List.mem_cons, List.not_mem_nil, or_false,
      not_or] at h
    obtain ⟨h1, h2, h3, h4, h5⟩ := h
    simp only [kt_to_kev]
    rw [if_neg h1, if_neg h2, if_neg h3, if_neg h4, if_neg h5]
  · rw [show energy_to_ev (some 1000) "KEV".toList = some ((1000 : ℚ) * 10 ^ 3)
      from rfl]
    norm_num
  · rw [show energy_to_ev (some 1) "K".toList = some ((1 : ℚ) * kB_eV)
      from rfl]
    norm_num [kB_eV]

/-- C7: numeric coercion yields a finite number or null: finite floats
pass through, non-finite floats (NaN and both infinities) become null,
the blank/sentinel strings become null, numeric strings parse exactly
(`"3.14"` to `157/50`), strings parsing to a non-finite float become
null, and unparsable strings become null. -/
theorem claim_C7_to_num_finite_or_null :
    (∀ q : ℚ, to_num (Val.vnum (.finite q)) = some q) ∧
    to_num (Val.vnum .nan) = none ∧
    to_num (Val.vnum .inf) = none ∧
    to_num (Val.vnum .neginf) = none ∧
    to_num Val.vnone = none ∧
    to_num (Val.vstr "-") = none ∧
    to_num (Val.vstr "NA") = none ∧
    to_num (Val.vstr "N/A") = none ∧
    to_num (Val.vstr "") = none ∧
    to_num (Val.vstr "   ") = none ∧
    to_num (Val.vstr "3.14") = some (157 / 50) ∧
    to_num (Val.vstr "inf") = none ∧
    to_num (Val.vstr "-inf") = none ∧
    to_num (Val.vstr "nan") = none ∧
    (∀ s : String, strToFloat (pyStrip s.toList) = none →
      to_num (Val.vstr s) = none) ∧
    (∀ (s : String) (x : PFloat), strToFloat (pyStrip s.toList) = some x →
      finitePart x = none → to_num (Val.vstr s) = none) := by
  refine ⟨fun q => rfl, rfl, rfl, rfl, rfl, rfl, rfl, rfl, rfl, rfl,
    ?_, rfl, rfl, rfl, ?_, ?_⟩
  · rw [show to_num (Val.vstr "3.14") =
      some (((3 : ℕ) : ℚ) + ((14 : ℕ) : ℚ) / 10 ^ 2) from rfl]
    norm_num
  · intro s h
    simp only [to_num]
    split_ifs with hc
    · rfl
    · rw [h]; rfl
  · intro s x hx hfin
    simp only [to_num]
    split_ifs with hc
    · rfl
    · rw [hx]; exact hfin

/-! ## Driver deduplication (C3) -/

theorem processRows_eq (dm : List (DatasetKey × Dataset)) (mp : Nat) :
    ∀ (rows : List IndexRow) (st : BuildState),
      processRows dm mp st rows =
        ⟨seenAfter st.written (rows.filterMap (rowOutcome dm mp)),
         st.entries ++
           (dedupFirst st.written (rows.filterMap (rowOutcome dm mp))).map
             (fun o => o.2.1),
         st.points ++
           (dedupFirst st.written (rows.filterMap (rowOutcome dm mp))).flatMap
             (fun o => o.2.2.map (fun p => (o.1.1, o.1.2, p)))⟩ := by
  intro rows
  induction rows with
  | nil =>
    intro st
    simp [processRows, dedupFirst, seenAfter]
  | cons r rest ih =>
    intro st
    have hstep : processRows dm mp st (r :: rest) =
        processRows dm mp (processRow dm mp st r) rest := rfl
    rw [hstep, ih]
    cases ho : rowOutcome dm mp r with
    | none => simp [processRow, ho, List.filterMap_cons]
    | some o =>
      by_cases hw : o.1 ∈ st.written
      · simp [processRow, ho, hw, List.filterMap_cons, dedupFirst, seenAfter]
      · simp [processRow, ho, hw, List.filterMap_cons, dedupFirst, seenAfter]

theorem dedupFirst_append (xs : List ((String × String) × EntryRec × List Point)) :
    ∀ (seen : List (String × String)) (ys : List ((String × String) × EntryRec × List Point)),
      dedupFirst seen (xs ++ ys) =
        dedupFirst seen xs ++ dedupFirst (seenAfter seen xs) ys := by
  induction xs with
  | nil => intro seen ys; simp [dedupFirst, seenAfter]
  | cons o rest ih =>
    intro seen ys
    by_cases hw : o.1 ∈ seen <;> simp [dedupFirst, seenAfter, hw, ih]

theorem seenAfter_append (xs : List ((String × String) × EntryRec × List Point)) :
    ∀ (seen : List (String × String)) (ys : List ((String × String) × EntryRec × List Point)),
      seenAfter seen (xs ++ ys) = seenAfter (seenAfter seen xs) ys := by
  induction xs with
  | nil => intro seen ys; simp [seenAfter]
  | cons o rest ih =>
    intro seen ys
    by_cases hw : o.1 ∈ seen <;> simp [seenAfter, hw, ih]

theorem runBuild_fold (mp : Nat) :
    ∀ (groups : List (List (DatasetKey × Dataset) × List IndexRow))
      (st : BuildState),
      groups.foldl (fun st g => processRows g.1 mp st g.2) st =
        ⟨seenAfter st.written
           (groups.flatMap fun g => g.2.filterMap (rowOutcome g.1 mp)),
         st.entries ++
           (dedupFirst st.written
             (groups.flatMap fun g => g.2.filterMap (rowOutcome g.1 mp))).map
             (fun o => o.2.1),
         st.points ++
           (dedupFirst st.written
             (groups.flatMap fun g => g.2.filterMap (rowOutcome g.1 mp))).flatMap
             (fun o => o.2.2.map (fun p => (o.1.1, o.1.2, p)))⟩ := by
  intro groups
  induction groups with
  | nil =>
    intro st
    simp [dedupFirst, seenAfter]
  | cons g rest ih =>
    intro st
    rw [List.foldl_cons, processRows_eq, ih]
    simp only [List.flatMap_cons, dedupFirst_append, seenAfter_append,
      List.map_append, List.flatMap_append, List.append_assoc]

theorem dedupFirst_keys (outs : List ((String × String) × EntryRec × List Point)) :
    ∀ seen : List (String × String),
      ((dedupFirst seen outs).map (fun o => o.1)).Nodup ∧
      ∀ k ∈ (dedupFirst seen outs).map (fun o => o.1), k ∉ seen := by
  induction outs with
  | nil => intro seen; simp [dedupFirst]
  | cons o rest ih =>
    intro seen
    by_cases hw : o.1 ∈ seen
    · simpa [dedupFirst, hw] using ih seen
    · obtain ⟨hnd, hnin⟩ := ih (o.1 :: seen)
      rw [dedupFirst, if_neg hw, List.map_cons]
      constructor
      · rw [List.nodup_cons]
        refine ⟨fun hmem => ?_, hnd⟩
        exact hnin o.1 hmem (List.mem_cons_self _ _)
      · intro k hk
        rcases List.mem_cons.mp hk with hk | hk
        · subst hk; exact hw
        · intro hks
          exact hnin k hk (List.mem_cons.mpr (Or.inr hks))

theorem dedupFirst_subset (outs : List ((String × String) × EntryRec × List Point)) :
    ∀ (seen : List (String × String)) (o : (String × String) × EntryRec × List Point),
      o ∈ dedupFirst seen outs → o ∈ outs := by
  induction outs with
  | nil => intro seen o h; simp [dedupFirst] at h
  | cons x rest ih =>
    intro seen o h
    by_cases hw : x.1 ∈ seen
    · rw [dedupFirst, if_pos hw] at h
      exact List.mem_cons.mpr (Or.inr (ih seen o h))
    · rw [dedupFirst, if_neg hw] at h
      rcases List.mem_cons.mp h with h | h
      · subst h; exact List.mem_cons_self _ _
      · exact List.mem_cons.mpr (Or.inr (ih _ o h))

theorem rowOutcome_key {dm : List (DatasetKey × Dataset)} {mp : Nat}
    {row : IndexRow} {o : (String × String) × EntryRec × List Point}
    (h : rowOutcome dm mp row = some o) :
    o.2.1.entry_id = o.1.1 ∧ o.2.1.subentry_id = o.1.2 := by
  simp only [rowOutcome] at h
  split at h
  · exact absurd h (by simp)
  · split at h
    · split at h
      · exact absurd h (by simp)
      · split at h
        · exact absurd h (by simp)
        · split at h
          · exact absurd h (by simp)
          · rw [Option.some.injEq] at h
            subst h
            exact ⟨rfl, rfl⟩
    · exact absurd h (by simp)

/-- C3: in one build run, the inserted entry records and points are
exactly the first-write-wins deduplication of the per-row outcomes: for
each (entry_id, derived subentry_id) pair at most one entry record is
written (the keys are `Nodup`), and a later row resolving to an
already-written pair contributes nothing. -/
theorem claim_C3_first_write_wins (mp : Nat)
    (groups : List (List (DatasetKey × Dataset) × List IndexRow)) :
    runBuild mp groups =
      ⟨seenAfter []
         (groups.flatMap fun g => g.2.filterMap (rowOutcome g.1 mp)),
       (dedupFirst []
         (groups.flatMap fun g => g.2.filterMap (rowOutcome g.1 mp))).map
         (fun o => o.2.1),
       (dedupFirst []
         (groups.flatMap fun g => g.2.filterMap (rowOutcome g.1 mp))).flatMap
         (fun o => o.2.2.map (fun p => (o.1.1, o.1.2, p)))⟩ ∧
    ((runBuild mp groups).entries.map
      (fun e => (e.entry_id, e.subentry_id))).Nodup := by
  have hrun := runBuild_fold mp groups ⟨[], [], []⟩
  refine ⟨by simpa [runBuild] using hrun, ?_⟩
  rw [show runBuild mp groups =
    groups.foldl (fun st g => processRows g.1 mp st g.2) ⟨[], [], []⟩ from rfl,
    hrun]
  have hkeys :
      ∀ o ∈ dedupFirst ([] : List (String × String))
        (groups.flatMap fun g => g.2.filterMap (rowOutcome g.1 mp)),
        ((fun e => (e.entry_id, e.subentry_id)) ∘ fun o => o.2.1) o = o.1 := by
    intro o ho
    have hmem := dedupFirst_subset _ _ o ho
    rcases List.mem_flatMap.mp hmem with ⟨g, _, hg⟩
    rcases List.mem_filterMap.mp hg with ⟨r, _, hr⟩
    obtain ⟨h1, h2⟩ := rowOutcome_key hr
    simp [h1, h2]
  simp only [List.nil_append, List.map_map]
  rw [List.map_congr_left hkeys]
  exact (dedupFirst_keys _ []).1

/-! ## Atomic publish (C8) -/

theorem ne_tmpPath (output : String) : output ≠ tmpPath output := by
  intro h
  have hlen := congrArg String.length h
  rw [tmpPath, String.length_append] at hlen
  rw [show (".tmp.build" : String).length = 10 from rfl] at hlen
  omega

theorem isPrefix_of_proper {α : Type} {t l : List α} {x : α}
    (h : t <+: l ++ [x]) (hne : t ≠ l ++ [x]) : t <+: l := by
  have hlen : t.length ≤ l.length + 1 := by
    have := h.length_le
    simpa using this
  rcases Nat.lt_or_ge t.length (l.length + 1) with hlt | hge
  · have hle : t.length ≤ l.length := by omega
    have heq := List.prefix_iff_eq_take.mp h
    rw [List.take_append_of_le_length hle] at heq
    exact List.prefix_iff_eq_take.mpr heq
  · exfalso
    have hl : t.length = l.length + 1 := by omega
    have heq := List.prefix_iff_eq_take.mp h
    rw [hl] at heq
    rw [List.take_of_length_le (by simp)] at heq
    exact hne heq

theorem applyTrace_preserves (output : String) :
    ∀ (t : List FsOp) (fs : String → Option String),
      (∀ op ∈ t, ∃ c, op = FsOp.writeFile (tmpPath output) c) →
      applyTrace fs t output = fs output := by
  intro t
  induction t with
  | nil => intro fs _; rfl
  | cons op rest ih =>
    intro fs hall
    obtain ⟨c, hc⟩ := hall op (List.mem_cons_self _ _)
    subst hc
    have hstep : applyTrace fs (FsOp.writeFile (tmpPath output) c :: rest) =
        applyTrace (applyOp fs (FsOp.writeFile (tmpPath output) c)) rest := rfl
    rw [hstep, ih _ (fun op' h' => hall op' (List.mem_cons.mpr (Or.inr h')))]
    show (if output = tmpPath output then some c else fs output) = fs output
    rw [if_neg (ne_tmpPath output)]

/-- C8: every operation of the build trace before the final atomic
rename touches only the temporary path, so after any proper prefix of
the trace (a crash or interruption at any earlier point) the destination
path still holds exactly its previous content (or remains absent). -/
theorem claim_C8_atomic_publish (output : String) (writes : List String)
    (t : List FsOp) (fs : String → Option String)
    (hpre : t <+: buildTrace output writes)
    (hne : t ≠ buildTrace output writes) :
    applyTrace fs t output = fs output := by
  rw [buildTrace] at hpre hne
  have hpre' : t <+: writes.map (fun c => FsOp.writeFile (tmpPath output) c) :=
    isPrefix_of_proper hpre hne
  apply applyTrace_preserves
  intro op hop
  rcases List.mem_map.mp (hpre'.subset hop) with ⟨c, _, hc⟩
  exact ⟨c, hc.symm⟩

theorem claim_C8_witness :
    applyTrace (fun _ => none) [FsOp.writeFile (tmpPath "out") "x"] "out" =
      none :=
  claim_C8_atomic_publish "out" ["x", "y"]
    [FsOp.writeFile (tmpPath "out") "x"] (fun _ => none)
    ⟨[FsOp.writeFile (tmpPath "out") "y",
      FsOp.rename (tmpPath "out") "out"], rfl⟩
    (by decide)

/-! ## Target parsing (C2) -/

theorem takeWhile_dropWhile_of_append {p : Char → Bool} :
    ∀ (l r : List Char), (∀ c ∈ l, p c = true) →
      (∀ c cs, r = c :: cs → p c = false) →
      (l ++ r).takeWhile p = l ∧ (l ++ r).dropWhile p = r := by
  intro l
  induction l with
  | nil =>
    intro r _ hr
    cases r with
    | nil => exact ⟨rfl, rfl⟩
    | cons c cs =>
      have hc := hr c cs rfl
      exact ⟨by simp [List.takeWhile_cons, hc], by simp [List.dropWhile_cons, hc]⟩
  | cons a l ih =>
    intro r hl hr
    have ha : p a = true := hl a (List.mem_cons_self _ _)
    have hrec := ih r (fun c hc => hl c (List.mem_cons.mpr (Or.inr hc))) hr
    exact ⟨by simp [List.takeWhile_cons, ha, hrec.1],
      by simp [List.dropWhile_cons, ha, hrec.2]⟩

theorem elements_symbols_shape :
    ∀ e ∈ ELEMENTS, e.toList.all Char.isUpper = true ∧
      1 ≤ e.toList.length ∧ e.toList.length ≤ 3 := by decide

theorem indexOfStr_mem {s : String} :
    ∀ {l : List String} {n i : Nat}, indexOfStr s l n = some i → s ∈ l := by
  intro l
  induction l with
  | nil => intro n i h; exact absurd h (by simp [indexOfStr])
  | cons e rest ih =>
    intro n i h
    rw [indexOfStr] at h
    split at h
    · rename_i he
      subst he
      exact List.mem_cons_self _ _
    · exact List.mem_cons.mpr (Or.inr (ih h))

theorem symbol_facts {sym : List Char} {z : Nat}
    (h : SYMBOL_TO_Z (String.mk sym) = some z) :
    (∀ c ∈ sym, Char.isUpper c = true) ∧ 1 ≤ sym.length ∧ sym.length ≤ 3 := by
  unfold SYMBOL_TO_Z at h
  cases hidx : indexOfStr (String.mk sym) ELEMENTS 0 with
  | none => rw [hidx] at h; exact absurd h (by simp)
  | some i =>
    have hmem := indexOfStr_mem hidx
    obtain ⟨hall, h1, h3⟩ := elements_symbols_shape _ hmem
    have htl : (String.mk sym).toList = sym := rfl
    rw [htl] at hall h1 h3
    exact ⟨fun c hc => List.all_eq_true.mp hall c hc, h1, h3⟩

theorem parseSuffixState_eq_some {suffix : List Char} {st : Nat} :
    parseSuffixState suffix = some st ↔
      ((suffix = [] ∧ st = 0) ∨ (suffix = ['-', 'M'] ∧ st = 1) ∨
       (∃ ds : List Char, ds ≠ [] ∧ ds.all Char.isDigit = true ∧
         suffix = '-' :: 'M' :: ds ∧ st = digitsVal ds)) := by
  constructor
  · intro h
    unfold parseSuffixState at h
    split at h
    · rw [Option.some.injEq] at h
      exact Or.inl ⟨rfl, h.symm⟩
    · rename_i ds
      split at h
      · rename_i hall
        rw [Option.some.injEq] at h
        by_cases hds : ds = []
        · subst hds
          refine Or.inr (Or.inl ⟨rfl, ?_⟩)
          simpa using h.symm
        · refine Or.inr (Or.inr ⟨ds, hds, hall, rfl, ?_⟩)
          simpa [hds] using h.symm
      · exact absurd h (by simp)
    · exact absurd h (by simp)
  · rintro (⟨rfl, rfl⟩ | ⟨rfl, rfl⟩ | ⟨ds, hne, hall, rfl, rfl⟩)
    · rfl
    · rfl
    · simp [parseSuffixState, hall, hne]

theorem parseTargetCore_sound {cs : List Char} {z a st : Nat}
    (h : parseTargetCore cs = some (z, a, st)) : strictFormL cs z a st := by
  unfold parseTargetCore at h
  split at h
  · exact absurd h (by simp)
  · rename_i hlen
    split at h
    · rename_i rest2 hdrop
      unfold parseAfterDash at h
      split at h
      · exact absurd h (by simp)
      · rename_i hmass
        split at h
        · rename_i st' z' hsuf hsym
          rw [Option.some.injEq, Prod.mk.injEq, Prod.mk.injEq] at h
          obtain ⟨hz, ha, hst⟩ := h
          subst hz; subst ha; subst hst
          have hcs : cs = cs.takeWhile Char.isUpper ++ cs.dropWhile Char.isUpper :=
            (List.takeWhile_append_dropWhile _ _).symm
          rw [hdrop] at hcs
          have hmsplit : rest2 =
              rest2.takeWhile Char.isDigit ++ rest2.dropWhile Char.isDigit :=
            (List.takeWhile_append_dropWhile _ _).symm
          refine ⟨cs.takeWhile Char.isUpper, rest2.takeWhile Char.isDigit,
            rest2.dropWhile Char.isDigit, ?_, hsym, hmass, ?_, rfl, ?_⟩
          · conv_lhs => rw [hcs]
            rw [← hmsplit]
          · exact List.all_eq_true.mpr fun c hc => List.mem_takeWhile_imp hc
          · exact parseSuffixState_eq_some.mp hsuf
        · exact absurd h (by simp)
    · exact absurd h (by simp)

theorem parseTargetCore_complete {cs : List Char} {z a st : Nat}
    (h : strictFormL cs z a st) : parseTargetCore cs = some (z, a, st) := by
  obtain ⟨sym, mass, suffix, hcs, hsym, hmne, hmall, ha, hsuf⟩ := h
  obtain ⟨hupper, h1, h3⟩ := symbol_facts hsym
  have hbound : ∀ c cs', ('-' :: (mass ++ suffix)) = c :: cs' →
      Char.isUpper c = false := by
    intro c cs' he
    rw [List.cons.injEq] at he
    rw [← he.1]
    rfl
  have hsplit := takeWhile_dropWhile_of_append sym ('-' :: (mass ++ suffix))
    hupper hbound
  rw [← hcs] at hsplit
  unfold parseTargetCore
  rw [hsplit.1, hsplit.2, if_neg (by omega)]
  show parseAfterDash sym (mass ++ suffix) = some (z, a, st)
  have hdig : ∀ c ∈ mass, Char.isDigit c = true := List.all_eq_true.mp hmall
  have hsufbound : ∀ c cs', suffix = c :: cs' → Char.isDigit c = false := by
    rcases hsuf with ⟨rfl, _⟩ | ⟨rfl, _⟩ | ⟨ds, _, _, rfl, _⟩
    · intro c cs' he; exact absurd he (by simp)
    · intro c cs' he; rw [List.cons.injEq] at he; rw [← he.1]; rfl
    · intro c cs' he; rw [List.cons.injEq] at he; rw [← he.1]; rfl
  have hsplit2 := takeWhile_dropWhile_of_append mass suffix hdig hsufbound
  unfold parseAfterDash
  rw [hsplit2.1, hsplit2.2, if_neg hmne,
    parseSuffixState_eq_some.mpr hsuf, hsym, ha]

theorem strictFormL_last {cs : List Char} {z a st : Nat}
    (h : strictFormL cs z a st) :
    ∃ c, cs.reverse.head? = some c ∧ (Char.isDigit c = true ∨ c = 'M') := by
  obtain ⟨sym, mass, suffix, hcs, _, hmne, hmall, _, hsuf⟩ := h
  subst hcs
  rcases hsuf with ⟨rfl, _⟩ | ⟨rfl, _⟩ | ⟨ds, hdne, hdall, rfl, _⟩
  · obtain ⟨c, cs', hrev⟩ :=
      List.exists_cons_of_ne_nil (mt List.reverse_eq_nil_iff.mp hmne)
    refine ⟨c, ?_, Or.inl ?_⟩
    · simp only [List.reverse_append, List.reverse_cons, List.append_nil,
        List.append_assoc]
      rw [hrev]
      rfl
    · have hc : c ∈ mass.reverse := hrev ▸ List.mem_cons_self c cs'
      exact List.all_eq_true.mp hmall c (List.mem_reverse.mp hc)
  · refine ⟨'M', ?_, Or.inr rfl⟩
    simp [List.reverse_append]
  · obtain ⟨c, cs', hrev⟩ :=
      List.exists_cons_of_ne_nil (mt List.reverse_eq_nil_iff.mp hdne)
    refine ⟨c, ?_, Or.inl ?_⟩
    · simp only [List.reverse_append, List.reverse_cons, List.append_assoc]
      rw [hrev]
      rfl
    · have hc : c ∈ ds.reverse := hrev ▸ List.mem_cons_self c cs'
      exact List.all_eq_true.mp hdall c (List.mem_reverse.mp hc)

theorem stripFinalNewline_cases (cs : List Char) :
    (∃ r, cs.reverse = '\x0a' :: r ∧ stripFinalNewline cs = r.reverse ∧
      cs = r.reverse ++ ['\x0a']) ∨
    (cs.reverse.head? ≠ some '\x0a' ∧ stripFinalNewline cs = cs) := by
  cases hrev : cs.reverse with
  | nil =>
    right
    refine ⟨by simp [hrev], ?_⟩
    unfold stripFinalNewline
    rw [hrev]
  | cons c r =>
    by_cases hc : c = '\x0a'
    · subst hc
      left
      refine ⟨r, rfl, ?_, ?_⟩
      · unfold stripFinalNewline
        rw [hrev]
        rfl
      · have hrr := congrArg List.reverse hrev
        rw [List.reverse_reverse] at hrr
        rw [hrr]
        simp [List.reverse_cons]
    · right
      refine ⟨by simp [hrev, hc], ?_⟩
      unfold stripFinalNewline
      rw [hrev]
      split
      · rename_i rest heq
        rw [List.cons.injEq] at heq
        exact absurd heq.1 hc
      · rfl

theorem parse_target_eq_some_iff (s : String) (z a st : Nat) :
    parse_target s = some (z, a, st) ↔ specTargetNL s z a st := by
  unfold parse_target specTargetNL
  rcases stripFinalNewline_cases s.toList with
    ⟨r, hrev, hstrip, hdecomp⟩ | ⟨hhead, hstrip⟩
  · rw [hstrip]
    constructor
    · intro h
      exact ⟨r.reverse, Or.inr hdecomp, parseTargetCore_sound h⟩
    · rintro ⟨core, hcore | hcore, hform⟩
      · exfalso
        obtain ⟨c, hc, hd⟩ := strictFormL_last hform
        rw [← hcore, hrev] at hc
        rw [List.head?_cons, Option.some.injEq] at hc
        subst hc
        rcases hd with hd | hd
        · exact absurd hd (by decide)
        · exact absurd hd (by decide)
      · have hcoreq : core = r.reverse := by
          rw [hdecomp] at hcore
          exact (List.append_left_injective _ hcore.symm)
        rw [← hcoreq]
        exact parseTargetCore_complete hform
  · rw [hstrip]
    constructor
    · intro h
      exact ⟨s.toList, Or.inl rfl, parseTargetCore_sound h⟩
    · rintro ⟨core, hcore | hcore, hform⟩
      · rw [hcore]
        exact parseTargetCore_complete hform
      · exfalso
        apply hhead
        rw [hcore]
        simp [List.reverse_append]

/-- C2 counterexample: the regex's `$` anchor also matches just before a
trailing newline, so `parse_target` accepts `"FE-56\n"`, a string that
does not have the claimed `SYMBOL-MASS` form. -/
theorem claim_C2_counterexample :
    parse_target "FE-56\x0a" = some (26, 56, 0) ∧
    ¬ specTargetStrict "FE-56\x0a" 26 56 0 := by
  refine ⟨by decide, ?_⟩
  intro h
  obtain ⟨c, hc, hd⟩ := strictFormL_last h
  rw [show ("FE-56\x0a".toList.reverse.head?) = some '\x0a' from rfl,
    Option.some.injEq] at hc
  subst hc
  rcases hd with hd | hd
  · exact absurd hd (by decide)
  · exact absurd hd (by decide)

/-- C2 (amended): `parse_target` succeeds with `(Z, A, state)` exactly
when the input, possibly after dropping one trailing newline, has the
form `SYMBOL-MASS` or `SYMBOL-MASS-Mn` with the symbol in the element
table; the state is `0` with no suffix, `1` for a bare `-M`, and `n` for
`-Mn`.  In particular `"FE-56"`, `"U-235-M"`, `"U-235-M2"` parse as
claimed, and `"XX-10"`, `"FE56"` fail. -/
theorem claim_C2_parse_target_form :
    (∀ (s : String) (z a st : Nat),
      parse_target s = some (z, a, st) ↔ specTargetNL s z a st) ∧
    parse_target "FE-56" = some (26, 56, 0) ∧
    parse_target "U-235-M" = some (92, 235, 1) ∧
    parse_target "U-235-M2" = some (92, 235, 2) ∧
    parse_target "XX-10" = none ∧
    parse_target "FE56" = none :=
  ⟨parse_target_eq_some_iff, by decide, by decide, by decide, by decide,
   by decide⟩

end Exfor
